import Mathlib

/-!
# Verification of the MPFR core spec against the source

Shallow embedding of the remainder engine (`rem1.c`), the gamma trivial-case
dispatch and escalation driver (`gamma.c`), and the atanh special-case
dispatch, escalation driver and final sign/rounding steps (`atanh.c`),
together with theorems settling the spec claims about them.

Machine integers (`mpz_t`, `long`, `mp_exp_t`) are modelled as `ℕ`/`ℤ`;
arbitrary-precision values as sign/mantissa/exponent triples.  External
correctly-rounded primitives (log, exp, sin, ...) and the can-round test are
abstracted as oracle parameters, since the spec treats them as external
collaborators.
-/

namespace MPFRModel

/-- MPFR rounding modes, in the order of `mpfr_rnd_t` in `mpfr.h`. -/
inductive Rnd
  | RNDN
  | RNDZ
  | RNDU
  | RNDD
  | RNDA
  deriving DecidableEq, Repr

/-- Semantic content of an `mpfr_t`: the special-value sentinels of the
representation, or a finite nonzero value `±m·2^e` (`neg` is the sign bit,
`m` the integer mantissa as produced by `mpfr_get_z_exp`, `e` the scale).
The sign bit is stored for every kind, as in `_mpfr_sign`. -/
inductive MF
  | nan
  | inf (neg : Bool)
  | zero (neg : Bool)
  | num (neg : Bool) (m : ℕ) (e : ℤ)
  deriving DecidableEq, Repr

namespace MF

/-- Models `MPFR_IS_NAN`. -/
def isNan : MF → Bool
  | .nan => true
  | _ => false

/-- Models `MPFR_IS_INF`. -/
def isInf : MF → Bool
  | .inf _ => true
  | _ => false

/-- Models `MPFR_IS_ZERO`. -/
def isZero : MF → Bool
  | .zero _ => true
  | _ => false

/-- Models `MPFR_IS_SINGULAR`: NaN, infinity or zero. -/
def isSingular : MF → Bool
  | .num _ _ _ => false
  | _ => true

/-- Finite (zero or a finite nonzero number). -/
def isFinite : MF → Bool
  | .zero _ => true
  | .num _ _ _ => true
  | _ => false

/-- The sign bit of the stored value (`MPFR_IS_NEG`). -/
def negSign : MF → Bool
  | .nan => false
  | .inf b => b
  | .zero b => b
  | .num b _ _ => b

/-- Models `MPFR_CHANGE_SIGN` and `mpfr_neg` at the exact level: flip the sign bit. -/
def negate : MF → MF
  | .nan => .nan
  | .inf b => .inf (!b)
  | .zero b => .zero (!b)
  | .num b m e => .num (!b) m e

/-- Exact rational value of a non-singular (or zero) `MF`; singular values
other than zero are mapped to `0` (their value is not used). -/
def val : MF → ℚ
  | .num neg m e => (if neg then -1 else 1) * m * (2 : ℚ) ^ e
  | _ => 0

end MF

/-- Trailing-zero count of a positive natural, with explicit fuel so that the
definition is structural (kernel-evaluable).  Models `mpz_scan1 (my, 0)` on a
positive argument. -/
def trailing2Go : ℕ → ℕ → ℕ
  | 0, _ => 0
  | fuel + 1, n => if n % 2 = 0 ∧ n ≠ 0 then trailing2Go fuel (n / 2) + 1 else 0

/-- Models `mpz_scan1 (n, 0)` for positive `n`: the number of trailing zero bits. -/
def trailing2 (n : ℕ) : ℕ := trailing2Go n n

/-- Models `sizeof(long) * CHAR_BIT - 1` with 64-bit `long`: the number of quotient
bits kept by `remquo` (`rem1.c` line 28). -/
def WANTED_BITS : ℕ := 63

/-- Final stage of `mpfr_rem1` (`rem1.c` lines 172-206): the optional
round-to-nearest correction of the remainder `r` against the current divisor
magnitude `myc` (with quotient parity `qodd` breaking ties), the reattachment
of the power-of-two scale `escale`, and the reapplication of the sign of `x`
(`sx`) to the remainder and of `sign` to the reported quotient.  Returns the
reported quotient (`none` when the caller passed a null `quo`) and the exact
remainder before the final rounding to the destination precision. -/
def rem1_finish (rndq : Rnd) (sign sx : ℤ) (escale : ℤ) (myc : ℕ)
    (qodd : Bool) (quo0 : Option ℤ) (r : ℤ) : Option ℤ × MF :=
  if r = 0 then
    (quo0.map (· * sign), MF.zero (decide (sx < 0)))
  else
    let step : ℤ × Option ℤ :=
      if rndq = Rnd.RNDN then
        if (2 * r).natAbs > myc ∨ ((2 * r).natAbs = myc ∧ qodd = true) then
          (r - myc, quo0.map (· + 1))
        else (r, quo0)
      else (r, quo0)
    (step.2.map (· * sign), MF.num (decide (sx * step.1 < 0)) step.1.natAbs escale)

/-- General case of `mpfr_rem1` (`rem1.c` lines 84-206) on finite nonzero
operands `x = sx·mx·2^ex`, `y = sy·my·2^ey` (`sx`, `sy` are `±1`, `mx`, `my`
positive, as produced by `mpfr_get_z_exp` after `mpz_abs`).  `wantQuo` is
whether the caller passed a non-null `quo`; `rndq` is the quotient-rounding
submode (`GMP_RNDZ` for fmod, `GMP_RNDN` for remainder/remquo). -/
def mpfr_rem1_core (wantQuo : Bool) (rndq : Rnd) (sx : ℤ) (mx : ℕ) (ex : ℤ)
    (sy : ℤ) (my : ℕ) (ey : ℤ) : Option ℤ × MF :=
  let sign : ℤ := if sx = sy then 1 else -1
  let k := trailing2 my
  let ey2 := ey + k
  let my2 := my / 2 ^ k
  if ex ≤ ey2 then
    let MY := my2 * 2 ^ (ey2 - ex).toNat
    let q := mx / MY
    let r : ℤ := (mx % MY : ℕ)
    let qodd : Bool := decide (rndq = Rnd.RNDN) && decide (q % 2 = 1)
    let quo0 : Option ℤ := if wantQuo then some ((q % 2 ^ WANTED_BITS : ℕ) : ℤ) else none
    rem1_finish rndq sign sx ex MY qodd quo0 r
  else
    let d := (ex - ey2).toNat
    if wantQuo then
      let M := my2 * 2 ^ WANTED_BITS
      let r1 := 2 ^ d % M * mx % M
      let q := r1 / my2
      let r : ℤ := (r1 % my2 : ℕ)
      rem1_finish rndq sign sx ey2 my2 (decide (q % 2 = 1)) (some (q : ℤ)) r
    else
      let M := 2 * my2
      let r1 := 2 ^ d % M * mx % M
      if rndq = Rnd.RNDN then
        rem1_finish rndq sign sx ey2 my2 (decide (my2 ≤ r1))
          none (if my2 ≤ r1 then (r1 : ℤ) - my2 else (r1 : ℤ))
      else
        rem1_finish rndq sign sx ey2 my2 false none (r1 : ℤ)

/-- Special-value dispatch of `mpfr_rem1` (`rem1.c` lines 65-82).  Returns
`none` when both operands are finite nonzero (fall through to the general
case); otherwise `some (quo, rem)` where `quo = none` models an untouched
(undefined) `*quo`.  The `mpfr_set (rem, x, rnd)` of the source is modelled
at the exact level (the value stored is `x`). -/
def mpfr_rem1_special (wantQuo : Bool) (x y : MF) : Option (Option ℤ × MF) :=
  if x.isSingular || y.isSingular then
    some (if x.isNan || y.isNan || x.isInf || y.isZero then (none, MF.nan)
          else ((if wantQuo then some 0 else none), x))
  else none

/-- Models `mpfr_rem1` (`rem1.c` lines 55-213): special dispatch, then the general
integer core on the mantissa/exponent decomposition of the operands. -/
def mpfr_rem1 (wantQuo : Bool) (rndq : Rnd) (x y : MF) : Option ℤ × MF :=
  match mpfr_rem1_special wantQuo x y with
  | some out => out
  | none =>
    match x, y with
    | .num nx mxv exv, .num ny myv eyv =>
        mpfr_rem1_core wantQuo rndq (if nx then -1 else 1) mxv exv
          (if ny then -1 else 1) myv eyv
    | _, _ => (none, MF.nan)

/-- Models `mpfr_remainder` (`rem1.c` lines 215-219): null `quo`, nearest submode. -/
def mpfr_remainder (x y : MF) : Option ℤ × MF := mpfr_rem1 false Rnd.RNDN x y

/-- Models `mpfr_remquo` (`rem1.c` lines 221-226): non-null `quo`, nearest submode. -/
def mpfr_remquo (x y : MF) : Option ℤ × MF := mpfr_rem1 true Rnd.RNDN x y

/-- Models `mpfr_fmod` (`rem1.c` lines 228-232): null `quo`, truncation submode. -/
def mpfr_fmod (x y : MF) : Option ℤ × MF := mpfr_rem1 false Rnd.RNDZ x y

/-- The special-case table exactly as the spec states it (section 4.4):
either operand NaN, or `x` infinite, or `y` zero, gives NaN with undefined
quotient; `y` infinite with finite `x` gives remainder `x` and quotient 0;
`x` zero with `y` neither NaN nor zero gives remainder `x` (sign preserved)
and quotient 0; anything else is not special. -/
def rem1SpecialTable (wantQuo : Bool) (x y : MF) : Option (Option ℤ × MF) :=
  if x.isNan || y.isNan || x.isInf || y.isZero then some (none, MF.nan)
  else if y.isInf then some ((if wantQuo then some 0 else none), x)
  else if x.isZero then some ((if wantQuo then some 0 else none), x)
  else none

/-- Rounding of a rational to an integer in the direction toward zero
(truncation), as the spec prescribes for the fmod quotient submode. -/
def rndZint (q : ℚ) : ℤ := if 0 ≤ q then ⌊q⌋ else ⌈q⌉

/-- Rounding of a rational to the nearest integer with ties to even, as the
spec prescribes for the remainder/remquo quotient submode. -/
def rndNint (q : ℚ) : ℤ :=
  if Int.fract q < 1 / 2 then ⌊q⌋
  else if 1 / 2 < Int.fract q then ⌊q⌋ + 1
  else if ⌊q⌋ % 2 = 0 then ⌊q⌋ else ⌊q⌋ + 1

/-! ## The gamma function (`gamma.c`) -/

/-- Outcome kind of the trivial-case dispatch at the head of `mpfr_gamma`
(`gamma.c` lines 67-90): NaN result, infinite result, exact 1, or fall
through into the reflection/series escalation loop. -/
inductive GammaTriv
  | gNaN
  | gInf
  | gOne
  | gLoop
  deriving DecidableEq, Repr

/-- Models `mpfr_cmp_ui (x, 1) == 0` for a finite nonzero `x = ±m·2^e`: the value
comparison performed at `gamma.c` line 85. -/
def mfNumIsOne (neg : Bool) (m : ℕ) (e : ℤ) : Bool :=
  !neg && (if 0 ≤ e then decide (m * 2 ^ e.toNat = 1) else decide (m = 2 ^ (-e).toNat))

/-- Trivial-case dispatch of `mpfr_gamma` (`gamma.c` lines 67-90), in source
order: NaN input; zero input (`!MPFR_NOTZERO`); infinite input; comparison
with 1; otherwise the escalation loop runs. -/
def mpfr_gamma_dispatch : MF → GammaTriv
  | .nan => .gNaN
  | .zero _ => .gInf
  | .inf _ => .gInf
  | .num neg m e => if mfNumIsOne neg m e then .gOne else .gLoop

/-- The ternary inexactness indicator returned by `mpfr_gamma` on each path:
`gamma.c` returns the literal `1` at lines 71, 76, 81, 89 and 215. -/
def mpfr_gamma_ternary (x : MF) : ℤ :=
  match mpfr_gamma_dispatch x with
  | .gNaN => 1
  | .gInf => 1
  | .gOne => 1
  | .gLoop => 1

/-- Whether an `MF` holds a non-positive integer value (zero, or a negative
value `−m·2^e` that is an integer); written from the spec wording for the
gamma pole table, to compare with the dispatch translated from the source. -/
def isNonPosInteger : MF → Bool
  | .zero _ => true
  | .num neg _ e => neg && (0 ≤ e)
  | _ => false

/-! ## Escalation drivers (Ziv loops) of `atanh.c` and `gamma.c` -/

/-- Outcome of running an escalation loop for a bounded number of trials:
either some trial accepted and the function returned (at the given working
precision), or the loop is still running (with the given precision for its
next trial).  Translated from the loop structure of `atanh.c` lines 91-115
and `gamma.c` lines 93-211: those loops have no other exit — in particular
no iteration-cap or assertion-failure outcome exists in the source. -/
inductive ZivOutcome
  | returned (Nt : ℕ)
  | running (Nt : ℕ)
  deriving DecidableEq, Repr

/-- Whether a `ZivOutcome` is still running. -/
def ZivOutcome.isRunning : ZivOutcome → Bool
  | .running _ => true
  | _ => false

/-- The analytic error bound computed in each atanh trial (`atanh.c` line
107): `err = Nt - (MAX (4 - MPFR_GET_EXP (t), 0) + 1)` where `Nt` is the
working precision of the trial and `et` the exponent of the trial value. -/
def atanh_err (Nt : ℕ) (et : ℤ) : ℤ := (Nt : ℤ) - (max (4 - et) 0 + 1)

/-- Exit condition of the atanh escalation loop (`atanh.c` lines 113-115):
the loop repeats while `err < 0`, or `mpfr_can_round` rejects, or the trial
value is zero; it exits when `0 ≤ err`, can-round accepts, and the trial
value is nonzero. -/
def atanh_exit (err : ℤ) (canRound : Bool) (tIsZero : Bool) : Bool :=
  decide (0 ≤ err) && canRound && !tIsZero

/-- Initial working precision of atanh (`atanh.c` lines 81-83):
`Nt = max(Nx,Ny); Nt = Nt + 4 + ceil_log2(Nt)`. -/
def atanh_Nt0 (Nx Ny : ℕ) : ℕ := max Nx Ny + 4 + Nat.clog 2 (max Nx Ny)

/-- The atanh escalation loop (`atanh.c` lines 91-115) run for at most `fuel`
trials.  The oracle maps the working precision of a trial to the can-round
verdict, the is-zero test of the trial value, and the exponent of the trial value
(the trial value itself is computed by the external log/div primitives).
On a rejected trial the working precision grows by 10 (`atanh.c` line 110)
and the loop repeats; no other exit path exists in the source. -/
def atanh_run (orc : ℕ → Bool × Bool × ℤ) : ℕ → ℕ → ZivOutcome
  | Nt, 0 => .running Nt
  | Nt, fuel + 1 =>
    let v := orc Nt
    if atanh_exit (atanh_err Nt v.2.2) v.1 v.2.1 then .returned Nt
    else atanh_run orc (Nt + 10) fuel

/-- The gamma escalation loop (`gamma.c` lines 93-211) run for at most `fuel`
trials, abstracting the whole series evaluation into the can-round oracle
(indexed by `realprec`): on acceptance (`gamma.c` line 194) the function
stores the result and exits; on rejection `realprec` grows by
`ceil_log2(realprec)` (`gamma.c` line 201) and the loop repeats; no other
exit path exists in the source. -/
def gamma_run (orc : ℕ → Bool) : ℕ → ℕ → ZivOutcome
  | rp, 0 => .running rp
  | rp, fuel + 1 =>
    if orc rp then .returned rp
    else gamma_run orc (rp + Nat.clog 2 rp) fuel

/-- Initial `realprec` of gamma (`gamma.c` line 91): target precision + 10. -/
def gamma_realprec0 (precGamma : ℕ) : ℕ := precGamma + 10

/-! ## The final sign/rounding stage of `mpfr_atanh` (`atanh.c`) -/

/-- Bit length of a natural number, with explicit fuel so that the
definition is structural (kernel-evaluable). -/
def bitlenGo : ℕ → ℕ → ℕ
  | 0, _ => 0
  | fuel + 1, n => if n = 0 then 0 else bitlenGo fuel (n / 2) + 1

/-- Bit length of a natural number (`0` has length `0`). -/
def bitlen (n : ℕ) : ℕ := bitlenGo n n

/-- Modelled from the spec: the representation-and-rounding primitive of
section 4.1 applied to a magnitude `m·2^e`, target precision `p` and rounding
direction (`up`: round the magnitude away from zero; `nearest`: ties-to-even
on the kept mantissa).  The sources of `mpfr_set`/`mpfr_set_z` are not part
of this repository (they are consumed primitives, spec section 6), so this
definition follows the rounding-mode semantics of the spec.  Returns the rounded
mantissa and scale. -/
def roundPos (m : ℕ) (e : ℤ) (p : ℕ) (up : Bool) (nearest : Bool) : ℕ × ℤ :=
  let s := bitlen m
  if s ≤ p then (m, e)
  else
    let d := s - p
    let q := m / 2 ^ d
    let rest := m % 2 ^ d
    let inc : Bool :=
      if nearest then decide (2 * rest > 2 ^ d) || (decide (2 * rest = 2 ^ d) && decide (q % 2 = 1))
      else up && decide (rest ≠ 0)
    ((if inc then q + 1 else q), e + d)

/-- Modelled from the spec: rounding a signed value `±m·2^e` to precision `p`
under an MPFR rounding mode (section 4.1 semantics; directed modes act on the
magnitude according to the stored sign). -/
def roundSigned (neg : Bool) (m : ℕ) (e : ℤ) (p : ℕ) (rnd : Rnd) : MF :=
  if m = 0 then MF.zero neg
  else
    let up : Bool :=
      match rnd with
      | .RNDN => false
      | .RNDZ => false
      | .RNDA => true
      | .RNDU => !neg
      | .RNDD => neg
    let me := roundPos m e p up (decide (rnd = Rnd.RNDN))
    MF.num neg me.1 me.2

/-- Models the tail of the general case of `mpfr_atanh` (`atanh.c` lines 117-120): the
working value `t = mt·2^et` (always computed from `|x|`) has its sign changed
to the sign of the input (`MPFR_CHANGE_SIGN`) *before* the final
`mpfr_set (y, t, rnd_mode)` rounds it to the destination precision. -/
def mpfr_atanh_tail (xtNeg : Bool) (mt : ℕ) (et : ℤ) (p : ℕ) (rnd : Rnd) : MF :=
  roundSigned xtNeg mt et p rnd

/-- The order of operations as the spec words it ("the sign of x reapplied
after the final rounding"): round the magnitude-computed working value first,
then reapply the sign of the input.  Written from the spec wording, to be
compared with `mpfr_atanh_tail` translated from the source. -/
def atanh_tail_signAfterRound (xtNeg : Bool) (mt : ℕ) (et : ℤ) (p : ℕ) (rnd : Rnd) : MF :=
  if xtNeg then (roundSigned false mt et p rnd).negate else roundSigned false mt et p rnd

/-- Models `mpfr_atanh` (`atanh.c` lines 32-128) with the final escalation-loop
trial value abstracted as `core`: the special dispatch (lines 40-61) and, for
a finite nonzero input, the evaluation of the identity on `|x|` (line 66
takes the absolute value; `core` receives only the magnitude) followed by the
sign/rounding tail.  `core` maps the input magnitude, the target precision
and whether the mode is nearest (which enters the can-round test of the loop at
line 114) to the final working value.  Returns the result and the ternary
inexactness indicator for the special paths (`MPFR_RET(0)` at lines 51, 57;
`MPFR_RET_NAN` returns 0); the ternary of the general path comes from the final
rounding and is reported as `none` (not needed by any claim). -/
def mpfr_atanh (core : ℕ × ℤ → ℕ → Bool → ℕ × ℤ) (x : MF) (p : ℕ) (rnd : Rnd) :
    MF × Option ℤ :=
  match x with
  | .nan => (MF.nan, some 0)
  | .inf b => (MF.inf b, some 0)
  | .zero b => (MF.zero b, some 0)
  | .num neg m e =>
    let t := core (m, e) p (decide (rnd = Rnd.RNDN))
    (mpfr_atanh_tail neg t.1 t.2 p rnd, none)

/-! ## Theorems -/

/-- Auxiliary fact: `2 ^ trailing2Go fuel n` divides `n` when `n ≤ fuel`. -/
theorem trailing2Go_pow_dvd : ∀ fuel n, n ≤ fuel → 2 ^ trailing2Go fuel n ∣ n := by
  intro fuel
  induction fuel with
  | zero =>
    intro n hn
    have hn0 : n = 0 := by omega
    subst hn0
    simp [trailing2Go]
  | succ k ih =>
    intro n hn
    by_cases h : n % 2 = 0 ∧ n ≠ 0
    · have h2 : n / 2 ≤ k := by omega
      have := ih (n / 2) h2
      rw [trailing2Go, if_pos h, pow_succ]
      rcases this with ⟨c, hc⟩
      refine ⟨c, ?_⟩
      calc n = 2 * (n / 2) := by omega
        _ = 2 * (2 ^ trailing2Go k (n / 2) * c) := congrArg (2 * ·) hc
        _ = 2 ^ trailing2Go k (n / 2) * 2 * c := by ring
    · rw [trailing2Go, if_neg h]; simp

/-- Divisibility fact: `2 ^ trailing2 n` divides `n` (so the `mpz_div_2exp` in
`rem1.c` is an exact division). -/
theorem trailing2_pow_dvd (n : ℕ) : 2 ^ trailing2 n ∣ n :=
  trailing2Go_pow_dvd n n le_rfl

/-- C3: the remainder engine handles special values exactly as tabulated:
NaN operands, infinite `x`, or zero `y` give a NaN remainder with the
quotient left undefined; infinite `y` with finite `x` gives remainder `x`
and quotient 0; zero `x` gives remainder `x` (sign preserved) and quotient 0.
The dispatch is a total function returning a value — the faults are signaled
only through the NaN result, never by an exception. -/
theorem C3_rem1_special_cases (wantQuo : Bool) (x y : MF) :
    mpfr_rem1_special wantQuo x y = rem1SpecialTable wantQuo x y := by
  cases x <;> cases y <;>
    simp [mpfr_rem1_special, rem1SpecialTable, MF.isSingular, MF.isNan,
      MF.isInf, MF.isZero]

/-! ### Helper lemmas -/

/-- Absolute value of a finite nonzero model value. -/
theorem abs_val_num (neg : Bool) (m : ℕ) (e : ℤ) :
    |MF.val (MF.num neg m e)| = (m : ℚ) * (2 : ℚ) ^ e := by
  rw [MF.val, abs_mul, abs_mul]
  have h2 : |(2 : ℚ) ^ e| = (2 : ℚ) ^ e := abs_of_pos (by positivity)
  cases neg <;> simp [h2]

/-- The round-to-nearest correction of `rem1_finish` leaves the remainder
within half the divisor in magnitude. -/
theorem rem1_finish_val_bound (sign sx : ℤ) (escale : ℤ) (myc : ℕ) (qodd : Bool)
    (quo0 : Option ℤ) (r : ℤ) (hr0 : 0 ≤ r) (hr : r < myc) :
    |MF.val (rem1_finish Rnd.RNDN sign sx escale myc qodd quo0 r).2|
      ≤ (myc : ℚ) * (2 : ℚ) ^ escale / 2 := by
  have hmyc : 0 < myc := by omega
  have key : ∀ rr : ℤ, 2 * rr.natAbs ≤ myc →
      |MF.val (MF.num (decide (sx * rr < 0)) rr.natAbs escale)|
        ≤ (myc : ℚ) * (2 : ℚ) ^ escale / 2 := by
    intro rr hb
    rw [abs_val_num]
    have h1 : (rr.natAbs : ℚ) ≤ (myc : ℚ) / 2 := by
      have h2 : ((2 * rr.natAbs : ℕ) : ℚ) ≤ ((myc : ℕ) : ℚ) := Nat.cast_le.mpr hb
      push_cast at h2
      linarith
    calc (rr.natAbs : ℚ) * (2 : ℚ) ^ escale ≤ ((myc : ℚ) / 2) * (2 : ℚ) ^ escale :=
          mul_le_mul_of_nonneg_right h1 (by positivity)
      _ = (myc : ℚ) * (2 : ℚ) ^ escale / 2 := by ring
  rcases eq_or_lt_of_le hr0 with h0 | h0
  · rw [rem1_finish, if_pos h0.symm]
    simp only [MF.val]
    rw [abs_zero]
    positivity
  · rw [rem1_finish, if_neg (by omega)]
    simp only [if_pos rfl]
    by_cases hc : (2 * r).natAbs > myc ∨ ((2 * r).natAbs = myc ∧ qodd = true)
    · rw [if_pos hc]
      refine key (r - myc) ?_
      rcases hc with h | ⟨h, _⟩ <;> omega
    · rw [if_neg hc]
      refine key r ?_
      have h1 : ¬((2 * r).natAbs > myc) := fun h => hc (Or.inl h)
      omega

/-- Stripping the trailing zeros of the divisor preserves its value. -/
theorem divisor_scale (my : ℕ) (ey : ℤ) :
    ((my / 2 ^ trailing2 my : ℕ) : ℚ) * (2 : ℚ) ^ (ey + (trailing2 my : ℤ))
      = (my : ℚ) * (2 : ℚ) ^ ey := by
  have hd := trailing2_pow_dvd my
  rw [zpow_add₀ (two_ne_zero), zpow_natCast]
  have hm : ((my / 2 ^ trailing2 my : ℕ) : ℚ) * (2 : ℚ) ^ trailing2 my = (my : ℚ) := by
    have hdm := Nat.div_mul_cancel hd
    calc ((my / 2 ^ trailing2 my : ℕ) : ℚ) * (2 : ℚ) ^ trailing2 my
        = (((my / 2 ^ trailing2 my) * 2 ^ trailing2 my : ℕ) : ℚ) := by push_cast; ring
      _ = (my : ℚ) := by rw [hdm]
  calc ((my / 2 ^ trailing2 my : ℕ) : ℚ) * ((2 : ℚ) ^ ey * (2 : ℚ) ^ trailing2 my)
      = (((my / 2 ^ trailing2 my : ℕ) : ℚ) * (2 : ℚ) ^ trailing2 my) * (2 : ℚ) ^ ey := by
        ring
    _ = (my : ℚ) * (2 : ℚ) ^ ey := by rw [hm]

/-- The scaled divisor of the first branch of the core has the value of `y`
up to the final power-of-two scale. -/
theorem MY_scale (my2 t : ℕ) (ex e2 : ℤ) (ht : (t : ℤ) = e2 - ex) :
    ((my2 * 2 ^ t : ℕ) : ℚ) * (2 : ℚ) ^ ex = (my2 : ℚ) * (2 : ℚ) ^ e2 := by
  push_cast
  rw [← zpow_natCast (2 : ℚ) t, ht, mul_assoc, ← zpow_add₀ (two_ne_zero)]
  rw [sub_add_cancel]

/-- Magnitude bound of the exact remainder produced by the nearest-submode
core (quotient pointer null), on both exponent branches. -/
theorem remainder_core_bound (sx sy : ℤ) (mx my : ℕ) (ex ey : ℤ) (hmy : 0 < my) :
    |MF.val (mpfr_rem1_core false Rnd.RNDN sx mx ex sy my ey).2|
      ≤ (my : ℚ) * (2 : ℚ) ^ ey / 2 := by
  have hdvd := trailing2_pow_dvd my
  have hmy2 : 0 < my / 2 ^ trailing2 my :=
    Nat.div_pos (Nat.le_of_dvd hmy hdvd) (by positivity)
  have hsc2 : ((my / 2 ^ trailing2 my : ℕ) : ℚ) * (2 : ℚ) ^ (ey + (trailing2 my : ℤ)) / 2
      = (my : ℚ) * (2 : ℚ) ^ ey / 2 := by rw [divisor_scale]
  simp only [mpfr_rem1_core]
  by_cases hbr : ex ≤ ey + (trailing2 my : ℤ)
  · rw [if_pos hbr]
    have hMY : 0 < my / 2 ^ trailing2 my * 2 ^ (ey + (trailing2 my : ℤ) - ex).toNat := by
      positivity
    have hsc : ((my / 2 ^ trailing2 my * 2 ^ (ey + (trailing2 my : ℤ) - ex).toNat : ℕ) : ℚ)
        * (2 : ℚ) ^ ex / 2 = (my : ℚ) * (2 : ℚ) ^ ey / 2 := by
      rw [MY_scale _ _ ex (ey + (trailing2 my : ℤ)) (by omega), divisor_scale]
    rw [← hsc]
    exact rem1_finish_val_bound _ _ _ _ _ _ _ (Int.natCast_nonneg _)
      (by exact_mod_cast Nat.mod_lt _ hMY)
  · rw [if_neg hbr, if_neg (by decide : ¬(false = true)), if_pos trivial]
    rw [← hsc2]
    have hr1lt : (2 ^ (ex - (ey + (trailing2 my : ℤ))).toNat % (2 * (my / 2 ^ trailing2 my)) * mx
        % (2 * (my / 2 ^ trailing2 my))) < 2 * (my / 2 ^ trailing2 my) :=
      Nat.mod_lt _ (by omega)
    refine rem1_finish_val_bound _ _ _ _ _ _ _ ?_ ?_
    · split_ifs with hc <;> omega
    · split_ifs with hc <;> omega

/-- With a non-nearest quotient submode, `rem1_finish` applied to a
nonnegative remainder reports the sign of `x` on the result. -/
theorem rem1_finish_sign_nonneg (rndq : Rnd) (hq : rndq ≠ Rnd.RNDN)
    (sign sx : ℤ) (escale : ℤ) (myc : ℕ) (qodd : Bool) (quo0 : Option ℤ)
    (r : ℤ) (hr : 0 ≤ r) (hsx : sx = 1 ∨ sx = -1) :
    (rem1_finish rndq sign sx escale myc qodd quo0 r).2.negSign = decide (sx < 0) := by
  unfold rem1_finish
  split_ifs with h0
  · simp [MF.negSign]
  · have hrpos : 0 < r := lt_of_le_of_ne hr (Ne.symm h0)
    simp only [if_neg hq, MF.negSign, decide_eq_decide]
    rcases hsx with rfl | rfl
    · rw [one_mul]; omega
    · constructor <;> intro <;> omega

/-- The truncation-submode core always reports the sign of `x` on the
remainder, also when the remainder is zero. -/
theorem fmod_core_sign (sx sy : ℤ) (mx my : ℕ) (ex ey : ℤ) (hsx : sx = 1 ∨ sx = -1) :
    (mpfr_rem1_core false Rnd.RNDZ sx mx ex sy my ey).2.negSign = decide (sx < 0) := by
  simp only [mpfr_rem1_core]
  by_cases hbr : ex ≤ ey + (trailing2 my : ℤ)
  · rw [if_pos hbr]
    exact rem1_finish_sign_nonneg _ (by decide) _ _ _ _ _ _ _ (Int.natCast_nonneg _) hsx
  · rw [if_neg hbr, if_neg (by decide : ¬(false = true)),
      if_neg (by decide : ¬(Rnd.RNDZ = Rnd.RNDN))]
    exact rem1_finish_sign_nonneg _ (by decide) _ _ _ _ _ _ _ (Int.natCast_nonneg _) hsx

/-- The quotient reported by `rem1_finish` is a nonnegative count times the
precomputed sign factor. -/
theorem rem1_finish_quo_sign (rndq : Rnd) (sign sx escale : ℤ) (myc : ℕ) (qodd : Bool)
    (q0 r : ℤ) (hq0 : 0 ≤ q0) :
    ∀ qq : ℤ, (rem1_finish rndq sign sx escale myc qodd (some q0) r).1 = some qq →
      ∃ q1 : ℤ, 0 ≤ q1 ∧ qq = q1 * sign := by
  intro qq h
  rw [rem1_finish] at h
  split_ifs at h with h1 h2 h3
  · simp only [Option.map_some'] at h
    exact ⟨q0, hq0, (Option.some.injEq _ _ ▸ h).symm⟩
  · simp only [Option.map_some'] at h
    exact ⟨q0 + 1, by omega, (Option.some.injEq _ _ ▸ h).symm⟩
  · simp only [Option.map_some'] at h
    exact ⟨q0, hq0, (Option.some.injEq _ _ ▸ h).symm⟩
  · simp only [Option.map_some'] at h
    exact ⟨q0, hq0, (Option.some.injEq _ _ ▸ h).symm⟩

/-- The quotient reported by the remquo core is a nonnegative count times
the sign factor `sign(x·y)`. -/
theorem remquo_core_quo_sign (sx sy : ℤ) (mx my : ℕ) (ex ey : ℤ) :
    ∀ qq : ℤ, (mpfr_rem1_core true Rnd.RNDN sx mx ex sy my ey).1 = some qq →
      ∃ q1 : ℤ, 0 ≤ q1 ∧ qq = q1 * (if sx = sy then 1 else -1) := by
  simp only [mpfr_rem1_core]
  by_cases hbr : ex ≤ ey + (trailing2 my : ℤ)
  · rw [if_pos hbr]
    exact fun qq h =>
      rem1_finish_quo_sign _ _ _ _ _ _ _ _ (Int.natCast_nonneg _) qq h
  · rw [if_neg hbr, if_pos trivial]
    exact fun qq h =>
      rem1_finish_quo_sign _ _ _ _ _ _ _ _ (Int.natCast_nonneg _) qq h

/-- On two finite nonzero operands `mpfr_rem1` reduces to the general core. -/
theorem mpfr_rem1_num_num (wantQuo : Bool) (rndq : Rnd) (nx ny : Bool)
    (mx my : ℕ) (ex ey : ℤ) :
    mpfr_rem1 wantQuo rndq (MF.num nx mx ex) (MF.num ny my ey)
      = mpfr_rem1_core wantQuo rndq (if nx then -1 else 1) mx ex
          (if ny then -1 else 1) my ey := rfl

/-- A finite nonzero value with a clear sign bit is positive. -/
theorem val_num_pos (m : ℕ) (e : ℤ) (hm : 0 < m) : 0 < MF.val (MF.num false m e) := by
  have hmq : (0 : ℚ) < (m : ℚ) := by exact_mod_cast hm
  have h : MF.val (MF.num false m e) = (m : ℚ) * (2 : ℚ) ^ e := by simp [MF.val]
  rw [h]
  exact mul_pos hmq (by positivity)

/-- A finite nonzero value with a set sign bit is negative. -/
theorem val_num_isneg (m : ℕ) (e : ℤ) (hm : 0 < m) : MF.val (MF.num true m e) < 0 := by
  have hmq : (0 : ℚ) < (m : ℚ) := by exact_mod_cast hm
  have h : MF.val (MF.num true m e) = -((m : ℚ) * (2 : ℚ) ^ e) := by simp [MF.val]
  rw [h]
  have h2 : (0 : ℚ) < (m : ℚ) * (2 : ℚ) ^ e := mul_pos hmq (by positivity)
  linarith

/-- Sign of the true mathematical quotient `x / y` of two finite nonzero
values, in terms of the sign bits. -/
theorem val_quot_sign (nx ny : Bool) (mx my : ℕ) (ex ey : ℤ) (hmx : 0 < mx) (hmy : 0 < my) :
    (0 < MF.val (MF.num nx mx ex) / MF.val (MF.num ny my ey) ↔ nx = ny) ∧
    (MF.val (MF.num nx mx ex) / MF.val (MF.num ny my ey) < 0 ↔ nx ≠ ny) := by
  cases nx <;> cases ny
  · have hd := div_pos (val_num_pos mx ex hmx) (val_num_pos my ey hmy)
    constructor
    · exact ⟨fun _ => rfl, fun _ => hd⟩
    · constructor
      · intro h; linarith
      · intro h; exact absurd rfl h
  · have hd := div_neg_of_pos_of_neg (val_num_pos mx ex hmx) (val_num_isneg my ey hmy)
    constructor
    · constructor
      · intro h; linarith
      · intro h; exact absurd h (by simp)
    · exact ⟨fun _ => by simp, fun _ => hd⟩
  · have hd := div_neg_of_neg_of_pos (val_num_isneg mx ex hmx) (val_num_pos my ey hmy)
    constructor
    · constructor
      · intro h; linarith
      · intro h; exact absurd h (by simp)
    · exact ⟨fun _ => by simp, fun _ => hd⟩
  · have hd := div_pos_of_neg_of_neg (val_num_isneg mx ex hmx) (val_num_isneg my ey hmy)
    constructor
    · exact ⟨fun _ => rfl, fun _ => hd⟩
    · constructor
      · intro h; linarith
      · intro h; exact absurd rfl h

/-- The boolean one-test of the gamma dispatch agrees with the value. -/
theorem mfNumIsOne_iff (neg : Bool) (m : ℕ) (e : ℤ) (hm : 0 < m) :
    mfNumIsOne neg m e = true ↔ MF.val (MF.num neg m e) = 1 := by
  cases neg
  · simp only [mfNumIsOne, Bool.not_false, Bool.true_and]
    by_cases he : 0 ≤ e
    · rw [if_pos he]
      have h2 : (2 : ℚ) ^ e = (2 : ℚ) ^ (e.toNat : ℕ) := by
        rw [← zpow_natCast (2 : ℚ) e.toNat]
        congr 1
        omega
      have hval : MF.val (MF.num false m e) = ((m * 2 ^ e.toNat : ℕ) : ℚ) := by
        simp only [MF.val, Bool.false_eq_true, if_false, one_mul]
        rw [h2]
        push_cast
        ring
      rw [hval, decide_eq_true_iff]
      constructor
      · intro h; rw [h]; norm_num
      · intro h
        have h3 : ((m * 2 ^ e.toNat : ℕ) : ℚ) = ((1 : ℕ) : ℚ) := by rw [h]; norm_num
        exact_mod_cast h3
    · rw [if_neg he]
      have h2 : (2 : ℚ) ^ e = ((2 : ℚ) ^ ((-e).toNat : ℕ))⁻¹ := by
        rw [← zpow_natCast (2 : ℚ) ((-e).toNat), ← zpow_neg]
        congr 1
        omega
      have hval : MF.val (MF.num false m e) = (m : ℚ) * (((2 ^ (-e).toNat : ℕ) : ℚ))⁻¹ := by
        simp only [MF.val, Bool.false_eq_true, if_false, one_mul]
        rw [h2]
        push_cast
        ring
      rw [hval, decide_eq_true_iff]
      have hpow : ((2 ^ (-e).toNat : ℕ) : ℚ) ≠ 0 := by positivity
      rw [mul_inv_eq_one₀ hpow]
      constructor
      · intro h; exact_mod_cast h
      · intro h; exact_mod_cast h
  · simp only [mfNumIsOne, Bool.not_true, Bool.false_and]
    have hneg := val_num_isneg m e hm
    constructor
    · intro h; simp at h
    · intro h; linarith

/-- Under a can-round oracle that always rejects, the atanh loop is still
running after any number of trials, at precision `Nt + 10·fuel`. -/
theorem atanh_run_allfalse : ∀ (fuel Nt : ℕ),
    atanh_run (fun _ => (false, false, 0)) Nt fuel = ZivOutcome.running (Nt + 10 * fuel) := by
  intro fuel
  induction fuel with
  | zero => intro Nt; simp [atanh_run]
  | succ k ih =>
    intro Nt
    rw [atanh_run]
    simp only [atanh_exit, Bool.and_false, Bool.false_and, Bool.false_eq_true, if_false]
    rw [ih]
    congr 1
    ring

/-- Under a can-round oracle that always rejects, the gamma loop is still
running after any number of trials. -/
theorem gamma_run_allfalse : ∀ (fuel rp : ℕ),
    (gamma_run (fun _ => false) rp fuel).isRunning = true := by
  intro fuel
  induction fuel with
  | zero => intro rp; rfl
  | succ k ih =>
    intro rp
    rw [gamma_run]
    simp only [Bool.false_eq_true, if_false]
    exact ih _

/-- Rounding commutes with negation under the sign-symmetric modes (nearest,
toward zero, away from zero). -/
theorem roundSigned_symm (neg : Bool) (m : ℕ) (e : ℤ) (p : ℕ) (rnd : Rnd)
    (h : rnd = Rnd.RNDN ∨ rnd = Rnd.RNDZ ∨ rnd = Rnd.RNDA) :
    roundSigned (!neg) m e p rnd = (roundSigned neg m e p rnd).negate := by
  rcases h with rfl | rfl | rfl <;>
  · rw [roundSigned, roundSigned]
    split_ifs with hm
    · rfl
    · rfl

/-- Rounding toward plus infinity of the negated value mirrors rounding
toward minus infinity of the value, and conversely. -/
theorem roundSigned_mirror (neg : Bool) (m : ℕ) (e : ℤ) (p : ℕ) :
    roundSigned (!neg) m e p Rnd.RNDU = (roundSigned neg m e p Rnd.RNDD).negate
    ∧ roundSigned (!neg) m e p Rnd.RNDD = (roundSigned neg m e p Rnd.RNDU).negate := by
  constructor <;>
  · rw [roundSigned, roundSigned]
    split_ifs with hm
    · rfl
    · simp only [MF.negate, Bool.not_not]

/-! ### Claim theorems -/

/-- C1: for finite nonzero operands the remainder engine is claimed to
produce `q = x/y` rounded per the submode and the exact remainder
`r = x − q·y`.  The concrete scenarios hold: `remainder(5, 3)` gives
remainder −1 with reported quotient 2, and `fmod(5, 3)` gives remainder 2
(operands in the limb-normalized form produced at precision 53).  But on
`fmod(2^100, 3)` (mantissa `2^63`, scale `2^37`) the engine returns the
remainder 4, while the claimed identity with `q = trunc(x/y)` forces the
remainder 1: the truncation submode on the large-exponent path never reduces
the computed `x mod 2y` to `x mod y` (`rem1.c` lines 157-167 adjust only for
the nearest submode), contradicting the comments of the source itself
(`rem1.c` lines 35-41 and 168).  This theorem records both the two correct
concrete scenarios and the failing evaluation. -/
theorem C1_remainder_engine_bug :
    ((mpfr_remquo (MF.num false (5 * 2 ^ 61) (-61)) (MF.num false (3 * 2 ^ 62) (-62))).1
        = some 2
      ∧ MF.val (mpfr_remquo (MF.num false (5 * 2 ^ 61) (-61))
          (MF.num false (3 * 2 ^ 62) (-62))).2 = -1)
    ∧ MF.val (mpfr_fmod (MF.num false (5 * 2 ^ 61) (-61))
        (MF.num false (3 * 2 ^ 62) (-62))).2 = 2
    ∧ MF.val (mpfr_fmod (MF.num false (2 ^ 63) 37) (MF.num false (3 * 2 ^ 62) (-62))).2 = 4
    ∧ MF.val (MF.num false (2 ^ 63) 37)
        - rndZint (MF.val (MF.num false (2 ^ 63) 37)
            / MF.val (MF.num false (3 * 2 ^ 62) (-62)))
          * MF.val (MF.num false (3 * 2 ^ 62) (-62)) = 1 := by
  have hx5 : (mpfr_remquo (MF.num false (5 * 2 ^ 61) (-61)) (MF.num false (3 * 2 ^ 62) (-62)))
      = (some 2, MF.num true (2 ^ 61) (-61)) := by decide
  have hf5 : (mpfr_fmod (MF.num false (5 * 2 ^ 61) (-61)) (MF.num false (3 * 2 ^ 62) (-62))).2
      = MF.num false (2 ^ 62) (-61) := by decide
  have hfb : (mpfr_fmod (MF.num false (2 ^ 63) 37) (MF.num false (3 * 2 ^ 62) (-62))).2
      = MF.num false 4 0 := by decide
  have hvx : MF.val (MF.num false (2 ^ 63) 37) = 2 ^ 100 := by simp [MF.val]; norm_num
  have hvy : MF.val (MF.num false (3 * 2 ^ 62) (-62)) = 3 := by simp [MF.val]; norm_num
  refine ⟨⟨?_, ?_⟩, ?_, ?_, ?_⟩
  · rw [hx5]
  · rw [hx5]; simp [MF.val]; norm_num
  · rw [hf5]; simp [MF.val]; norm_num
  · rw [hfb]; simp [MF.val]
  · rw [hvx, hvy]
    have h1 : rndZint ((2 : ℚ) ^ (100 : ℕ) / 3) = 422550200076076467165567735125 := by
      rw [rndZint, if_pos (by positivity), Int.floor_eq_iff]
      constructor <;> norm_num
    rw [h1]
    norm_num

/-- C2: for finite nonzero operands, the fmod remainder carries the sign of
`x` (also when it is zero), the remainder of the nearest submode satisfies
`|r| ≤ |y|/2` (stated of the exact remainder the engine constructs, before
the final correctly-rounded conversion to the destination precision, which
is where the spec places all rounding error), and the quotient reported by
remquo carries the sign of the true mathematical quotient `x/y`. -/
theorem C2_sign_laws (nx ny : Bool) (mx my : ℕ) (ex ey : ℤ)
    (hmx : 0 < mx) (hmy : 0 < my) :
    ((mpfr_fmod (MF.num nx mx ex) (MF.num ny my ey)).2.negSign = nx)
    ∧ (|MF.val (mpfr_remainder (MF.num nx mx ex) (MF.num ny my ey)).2|
        ≤ (my : ℚ) * (2 : ℚ) ^ ey / 2)
    ∧ (∀ qq : ℤ, (mpfr_remquo (MF.num nx mx ex) (MF.num ny my ey)).1 = some qq →
        (0 < MF.val (MF.num nx mx ex) / MF.val (MF.num ny my ey) → 0 ≤ qq)
        ∧ (MF.val (MF.num nx mx ex) / MF.val (MF.num ny my ey) < 0 → qq ≤ 0)) := by
  refine ⟨?_, ?_, ?_⟩
  · rw [mpfr_fmod, mpfr_rem1_num_num]
    rw [fmod_core_sign _ _ _ _ _ _ (by cases nx <;> simp)]
    cases nx <;> simp
  · rw [mpfr_remainder, mpfr_rem1_num_num]
    exact remainder_core_bound _ _ _ _ _ _ hmy
  · rw [mpfr_remquo, mpfr_rem1_num_num]
    intro qq h
    obtain ⟨q1, hq1, hqq⟩ := remquo_core_quo_sign _ _ _ _ _ _ qq h
    obtain ⟨hiffp, hiffn⟩ := val_quot_sign nx ny mx my ex ey hmx hmy
    constructor
    · intro hsgn
      have hnxy : nx = ny := hiffp.mp hsgn
      have hs : (if nx then (-1 : ℤ) else 1) = (if ny then (-1 : ℤ) else 1) := by rw [hnxy]
      rw [hqq, if_pos hs]
      omega
    · intro hsgn
      have hnxy : nx ≠ ny := hiffn.mp hsgn
      have hs : (if nx then (-1 : ℤ) else 1) ≠ (if ny then (-1 : ℤ) else 1) := by
        cases nx <;> cases ny <;> simp_all
      rw [hqq, if_neg hs]
      omega

/-- Witness for C2 at `x = 5`, `y = 3`. -/
theorem C2_sign_laws_witness :
    (0 < 5 ∧ 0 < 3)
    ∧ (((mpfr_fmod (MF.num false 5 0) (MF.num false 3 0)).2.negSign = false)
      ∧ (|MF.val (mpfr_remainder (MF.num false 5 0) (MF.num false 3 0)).2|
          ≤ ((3 : ℕ) : ℚ) * (2 : ℚ) ^ (0 : ℤ) / 2)
      ∧ (∀ qq : ℤ, (mpfr_remquo (MF.num false 5 0) (MF.num false 3 0)).1 = some qq →
          (0 < MF.val (MF.num false 5 0) / MF.val (MF.num false 3 0) → 0 ≤ qq)
          ∧ (MF.val (MF.num false 5 0) / MF.val (MF.num false 3 0) < 0 → qq ≤ 0))) :=
  ⟨⟨by norm_num, by norm_num⟩,
    C2_sign_laws false false 5 3 0 0 (by norm_num) (by norm_num)⟩

/-- C4 counterexample: the input −1 is a non-positive integer, yet the
trivial-case dispatch of `mpfr_gamma` does not classify it as a pole — the
source checks only NaN, zero, infinity and 1 (`gamma.c` lines 67-90), so −1
falls through into the reflection-formula escalation loop. -/
theorem C4_negative_integer_not_pole :
    isNonPosInteger (MF.num true 1 0) = true
    ∧ mpfr_gamma_dispatch (MF.num true 1 0) ≠ GammaTriv.gInf := by decide

/-- C4 (amended): the gamma trivial-case dispatch maps NaN to NaN, zero to
infinity, both infinities to infinity, and a finite nonzero input to the
exact result 1 precisely when its value is 1; non-positive non-zero integers
are not special-cased and fall through to the general evaluation. -/
theorem C4_gamma_trivial_cases :
    (mpfr_gamma_dispatch MF.nan = GammaTriv.gNaN)
    ∧ (∀ b, mpfr_gamma_dispatch (MF.zero b) = GammaTriv.gInf)
    ∧ (∀ b, mpfr_gamma_dispatch (MF.inf b) = GammaTriv.gInf)
    ∧ (∀ (neg : Bool) (m : ℕ) (e : ℤ), 0 < m →
        (mpfr_gamma_dispatch (MF.num neg m e) = GammaTriv.gOne
          ↔ MF.val (MF.num neg m e) = 1)) := by
  refine ⟨rfl, fun b => rfl, fun b => rfl, ?_⟩
  intro neg m e hm
  rw [← mfNumIsOne_iff neg m e hm]
  rw [mpfr_gamma_dispatch]
  by_cases h : mfNumIsOne neg m e
  · rw [if_pos h]; simp [h]
  · rw [if_neg h]; simp [h]

/-- Witness for the amended C4 at the input 1. -/
theorem C4_gamma_trivial_cases_witness :
    0 < 1 ∧ (mpfr_gamma_dispatch (MF.num false 1 0) = GammaTriv.gOne
      ↔ MF.val (MF.num false 1 0) = 1) :=
  ⟨by norm_num, C4_gamma_trivial_cases.2.2.2 false 1 0 (by norm_num)⟩

/-- C5 counterexample: neither escalation loop enforces an iteration or
precision cap.  Starting each loop at the initial precision it uses for a
53-bit target, under a can-round oracle that persistently rejects there is
no bound after which the loop has stopped (by a fault or otherwise): it is
still running after every number of trials, the working precision growing
without bound.  The loop structure translated from the source has no
fault or assertion outcome at all. -/
theorem C5_no_iteration_cap :
    (¬ ∃ B : ℕ, ∀ fuel, B ≤ fuel →
        (atanh_run (fun _ => (false, false, 0)) (atanh_Nt0 53 53) fuel).isRunning = false)
    ∧ (¬ ∃ B : ℕ, ∀ fuel, B ≤ fuel →
        (gamma_run (fun _ => false) (gamma_realprec0 53) fuel).isRunning = false) := by
  constructor
  · rintro ⟨B, hB⟩
    have h := hB B le_rfl
    rw [atanh_run_allfalse] at h
    simp [ZivOutcome.isRunning] at h
  · rintro ⟨B, hB⟩
    have h := hB B le_rfl
    rw [gamma_run_allfalse] at h
    simp at h

/-- C5 (amended): the escalation loops of atanh and gamma have no iteration
or precision cap and no fault path.  Each trial either exits through the
can-round test (together, for atanh, with `0 ≤ err` and a nonzero trial
value) or retries at a strictly larger precision — by 10 bits in atanh and
by `ceil(log2(realprec))` in gamma; under a persistently rejecting oracle
both loops run forever. -/
theorem C5_escalation_loops_uncapped :
    (∀ (orc : ℕ → Bool × Bool × ℤ) (Nt fuel : ℕ),
      atanh_run orc Nt (fuel + 1)
        = if atanh_exit (atanh_err Nt (orc Nt).2.2) (orc Nt).1 (orc Nt).2.1
            then ZivOutcome.returned Nt else atanh_run orc (Nt + 10) fuel)
    ∧ (∀ (orc : ℕ → Bool) (rp fuel : ℕ),
      gamma_run orc rp (fuel + 1)
        = if orc rp then ZivOutcome.returned rp
          else gamma_run orc (rp + Nat.clog 2 rp) fuel)
    ∧ (∀ fuel : ℕ, atanh_run (fun _ => (false, false, 0)) (atanh_Nt0 53 53) fuel
        = ZivOutcome.running (atanh_Nt0 53 53 + 10 * fuel))
    ∧ (∀ fuel : ℕ, (gamma_run (fun _ => false) (gamma_realprec0 53) fuel).isRunning = true) := by
  refine ⟨fun orc Nt fuel => rfl, fun orc rp fuel => rfl, ?_, ?_⟩
  · intro fuel; exact atanh_run_allfalse fuel _
  · intro fuel; exact gamma_run_allfalse fuel _

/-- C6: in every atanh trial the analytic error bound equals
`Nt − max(4 − exponent(t), 0) − 1` for the working precision `Nt` of that
trial, and every rejected trial retries at precision `Nt + 10`. -/
theorem C6_atanh_error_bound :
    (∀ (Nt : ℕ) (et : ℤ), atanh_err Nt et = (Nt : ℤ) - max (4 - et) 0 - 1)
    ∧ (∀ (orc : ℕ → Bool × Bool × ℤ) (Nt fuel : ℕ),
        atanh_exit (atanh_err Nt (orc Nt).2.2) (orc Nt).1 (orc Nt).2.1 = false →
        atanh_run orc Nt (fuel + 1) = atanh_run orc (Nt + 10) fuel) := by
  constructor
  · intro Nt et; rw [atanh_err]; ring
  · intro orc Nt fuel h
    rw [atanh_run]
    simp only [h, Bool.false_eq_true, if_false]

/-- Witness for C6: one rejected trial at precision 53 retries at 63. -/
theorem C6_atanh_error_bound_witness :
    atanh_exit (atanh_err 53 0) false false = false
    ∧ atanh_run (fun _ => (false, false, 0)) 53 1
        = atanh_run (fun _ => (false, false, 0)) 63 0 :=
  ⟨by decide, C6_atanh_error_bound.2 (fun _ => (false, false, 0)) 53 0 (by decide)⟩

/-- C7: atanh is odd bit-for-bit under the nearest, toward-zero and
away-from-zero modes, and the toward-plus-infinity and toward-minus-infinity
results for `x` and `−x` are mirror images under negation.  The working
value is abstracted as `core` (the externally computed log-based
approximation of the magnitude), which the code path applies to `|x|` only,
so both signs share the same trial value. -/
theorem C7_atanh_odd_symmetry (core : ℕ × ℤ → ℕ → Bool → ℕ × ℤ) (x : MF) (p : ℕ)
    (hfin : x.isFinite = true) :
    ((mpfr_atanh core x.negate p Rnd.RNDN).1 = ((mpfr_atanh core x p Rnd.RNDN).1).negate)
    ∧ ((mpfr_atanh core x.negate p Rnd.RNDZ).1 = ((mpfr_atanh core x p Rnd.RNDZ).1).negate)
    ∧ ((mpfr_atanh core x.negate p Rnd.RNDA).1 = ((mpfr_atanh core x p Rnd.RNDA).1).negate)
    ∧ ((mpfr_atanh core x.negate p Rnd.RNDU).1 = ((mpfr_atanh core x p Rnd.RNDD).1).negate)
    ∧ ((mpfr_atanh core x.negate p Rnd.RNDD).1 = ((mpfr_atanh core x p Rnd.RNDU).1).negate) := by
  cases x with
  | nan => simp [MF.isFinite] at hfin
  | inf b => simp [MF.isFinite] at hfin
  | zero b => exact ⟨rfl, rfl, rfl, rfl, rfl⟩
  | num neg m e =>
    refine ⟨?_, ?_, ?_, ?_, ?_⟩
    · exact roundSigned_symm neg _ _ p Rnd.RNDN (Or.inl rfl)
    · exact roundSigned_symm neg _ _ p Rnd.RNDZ (Or.inr (Or.inl rfl))
    · exact roundSigned_symm neg _ _ p Rnd.RNDA (Or.inr (Or.inr rfl))
    · exact (roundSigned_mirror neg _ _ p).1
    · exact (roundSigned_mirror neg _ _ p).2

/-- Witness for C7 at `x = 3`, `p = 2`, with a concrete core value. -/
theorem C7_atanh_odd_symmetry_witness :
    (MF.num false 3 0).isFinite = true
    ∧ (((mpfr_atanh (fun _ _ _ => ((5 : ℕ), (-3 : ℤ))) (MF.num false 3 0).negate 2 Rnd.RNDN).1
        = ((mpfr_atanh (fun _ _ _ => ((5 : ℕ), (-3 : ℤ))) (MF.num false 3 0) 2 Rnd.RNDN).1).negate)
      ∧ ((mpfr_atanh (fun _ _ _ => ((5 : ℕ), (-3 : ℤ))) (MF.num false 3 0).negate 2 Rnd.RNDZ).1
        = ((mpfr_atanh (fun _ _ _ => ((5 : ℕ), (-3 : ℤ))) (MF.num false 3 0) 2 Rnd.RNDZ).1).negate)
      ∧ ((mpfr_atanh (fun _ _ _ => ((5 : ℕ), (-3 : ℤ))) (MF.num false 3 0).negate 2 Rnd.RNDA).1
        = ((mpfr_atanh (fun _ _ _ => ((5 : ℕ), (-3 : ℤ))) (MF.num false 3 0) 2 Rnd.RNDA).1).negate)
      ∧ ((mpfr_atanh (fun _ _ _ => ((5 : ℕ), (-3 : ℤ))) (MF.num false 3 0).negate 2 Rnd.RNDU).1
        = ((mpfr_atanh (fun _ _ _ => ((5 : ℕ), (-3 : ℤ))) (MF.num false 3 0) 2 Rnd.RNDD).1).negate)
      ∧ ((mpfr_atanh (fun _ _ _ => ((5 : ℕ), (-3 : ℤ))) (MF.num false 3 0).negate 2 Rnd.RNDD).1
        = ((mpfr_atanh (fun _ _ _ => ((5 : ℕ), (-3 : ℤ))) (MF.num false 3 0) 2 Rnd.RNDU).1).negate)) :=
  ⟨by decide, C7_atanh_odd_symmetry (fun _ _ _ => ((5 : ℕ), (-3 : ℤ))) (MF.num false 3 0) 2 (by decide)⟩

/-- C8 counterexample: applying the sign after the final rounding (as the
claim words it) differs from what the source does.  At the working value
`7·2^(−3)` with a negative input, destination precision 2 and mode
toward-plus-infinity, the code tail (`atanh.c` lines 117-120: change the
sign of `t`, then round) yields −3/4, while rounding first and negating
afterwards yields −1. -/
theorem C8_sign_after_rounding_refuted :
    mpfr_atanh_tail true 7 (-3) 2 Rnd.RNDU
      ≠ atanh_tail_signAfterRound true 7 (-3) 2 Rnd.RNDU := by decide

/-- C8 (amended): atanh maps NaN to NaN and zero to zero with the sign of
the input preserved; for a finite nonzero input the identity is evaluated on
`|x|` (the abstracted core receives only the magnitude) and the sign of `x`
is reapplied to the working value *before* the final rounding to the
destination precision and mode; the two orders coincide under the
sign-symmetric modes (nearest, toward zero, away from zero). -/
theorem C8_atanh_sign_handling :
    (∀ (core : ℕ × ℤ → ℕ → Bool → ℕ × ℤ) (p : ℕ) (rnd : Rnd),
        mpfr_atanh core MF.nan p rnd = (MF.nan, some 0))
    ∧ (∀ (core : ℕ × ℤ → ℕ → Bool → ℕ × ℤ) (p : ℕ) (rnd : Rnd) (b : Bool),
        mpfr_atanh core (MF.zero b) p rnd = (MF.zero b, some 0))
    ∧ (∀ (core : ℕ × ℤ → ℕ → Bool → ℕ × ℤ) (p : ℕ) (rnd : Rnd) (neg : Bool) (m : ℕ) (e : ℤ),
        (mpfr_atanh core (MF.num neg m e) p rnd).1
          = mpfr_atanh_tail neg (core (m, e) p (decide (rnd = Rnd.RNDN))).1
              (core (m, e) p (decide (rnd = Rnd.RNDN))).2 p rnd)
    ∧ (∀ (xtNeg : Bool) (mt : ℕ) (et : ℤ) (p : ℕ) (rnd : Rnd),
        rnd = Rnd.RNDN ∨ rnd = Rnd.RNDZ ∨ rnd = Rnd.RNDA →
        mpfr_atanh_tail xtNeg mt et p rnd = atanh_tail_signAfterRound xtNeg mt et p rnd) := by
  refine ⟨fun core p rnd => rfl, fun core p rnd b => rfl, fun core p rnd neg m e => rfl, ?_⟩
  intro xtNeg mt et p rnd h
  cases xtNeg
  · rfl
  · show roundSigned true mt et p rnd = (roundSigned false mt et p rnd).negate
    exact roundSigned_symm false mt et p rnd h

/-- Witness for the amended C8 under the toward-zero mode. -/
theorem C8_atanh_sign_handling_witness :
    (Rnd.RNDZ = Rnd.RNDN ∨ Rnd.RNDZ = Rnd.RNDZ ∨ Rnd.RNDZ = Rnd.RNDA)
    ∧ mpfr_atanh_tail true 7 (-3) 2 Rnd.RNDZ
        = atanh_tail_signAfterRound true 7 (-3) 2 Rnd.RNDZ :=
  ⟨Or.inr (Or.inl rfl),
    C8_atanh_sign_handling.2.2.2 true 7 (-3) 2 Rnd.RNDZ (Or.inr (Or.inl rfl))⟩

/-- C9: `mpfr_gamma` returns the ternary inexactness indicator 1 on every
path, trivial cases included, so a caller can never detect exactness of a
gamma result from the indicator. -/
theorem C9_gamma_ternary_always_one : ∀ x : MF, mpfr_gamma_ternary x = 1 := by
  intro x
  rw [mpfr_gamma_ternary]
  cases mpfr_gamma_dispatch x <;> rfl

/-- C10: for an infinite input, atanh returns an infinity with the same sign
as the input and the inexactness indicator 0, rather than NaN (`atanh.c`
lines 47-52). -/
theorem C10_atanh_inf_same_sign (core : ℕ × ℤ → ℕ → Bool → ℕ × ℤ) (b : Bool)
    (p : ℕ) (rnd : Rnd) :
    mpfr_atanh core (MF.inf b) p rnd = (MF.inf b, some 0) := rfl

end MPFRModel
